import Mathlib

/-!
Verification of the pyevoea community-detection core against its specification.

The graph model (src/graph/mod.rs) is embedded directly: the Rust HashSet of
nodes becomes a duplicate-free list, the HashMap adjacency list becomes a
function into Option (a missing key is none, and indexing a missing key is the
panic branch, modelled by Option-valued results).  Machine integers (i32 node
and community ids) never overflow in the modelled operations, so they are
embedded as Int; f64 objective values are embedded as exact rationals.
-/

namespace Pyevoea

abbrev NodeId := Int
abbrev CommunityId := Int

/-- BTreeMap from NodeId to CommunityId, embedded as an association list in
key order (iteration order of a BTreeMap is ascending key order). -/
abbrev Partition := List (NodeId × CommunityId)

/-- src/graph/mod.rs: struct Graph.  The node HashSet is a duplicate-free
list; the adjacency HashMap is a function returning none on absent keys. -/
structure Graph where
  edges : List (NodeId × NodeId)
  nodes : List NodeId
  adjacency_list : NodeId → Option (List NodeId)

/-- src/graph/mod.rs: Graph::new. -/
def Graph.new : Graph :=
  { edges := [], nodes := [], adjacency_list := fun _ => none }

/-- HashSet::insert on the duplicate-free list model: a no-op when the
element is present, otherwise appended. -/
def listInsert (l : List NodeId) (x : NodeId) : List NodeId :=
  if x ∈ l then l else l ++ [x]

/-- src/graph/mod.rs: Graph::add_edge.  Pushes the pair on the edge list,
inserts both endpoints in the node set, and appends each endpoint to the
other one's adjacency entry (entry().or_default().push()). -/
def Graph.add_edge (g : Graph) (a b : NodeId) : Graph :=
  let adj1 : NodeId → Option (List NodeId) :=
    fun n => if n = a then some ((g.adjacency_list a).getD [] ++ [b]) else g.adjacency_list n
  { edges := g.edges ++ [(a, b)]
    nodes := listInsert (listInsert g.nodes a) b
    adjacency_list :=
      fun n => if n = b then some ((adj1 b).getD [] ++ [a]) else adj1 n }

/-- src/graph/mod.rs: Graph::neighbors (map_or of the empty slice). -/
def Graph.neighbors (g : Graph) (n : NodeId) : List NodeId :=
  (g.adjacency_list n).getD []

/-- src/graph/mod.rs: Graph::num_nodes. -/
def Graph.num_nodes (g : Graph) : Nat := g.nodes.length

/-- src/graph/mod.rs: Graph::num_edges. -/
def Graph.num_edges (g : Graph) : Nat := g.edges.length

/-- src/graph/mod.rs: Graph::precompute_degrees.  One pass over the node set;
self.adjacency_list[&node] panics on a missing key, which the Option models:
the result is none exactly when some node of the node set has no adjacency
entry. -/
def Graph.precompute_degrees (g : Graph) : Option (List (NodeId × Nat)) :=
  g.nodes.mapM (fun n => (g.adjacency_list n).map (fun l => (n, l.length)))

/-- src/utils (graph-ingestion boundary, spec section 6): the internal graph
is built by folding add_edge over the caller-supplied edge list starting from
Graph::new. -/
def buildGraph (es : List (NodeId × NodeId)) : Graph :=
  es.foldl (fun g e => g.add_edge e.1 e.2) Graph.new

/-! ### Basic lemmas about the graph operations -/

theorem mem_listInsert {l : List NodeId} {x y : NodeId} :
    y ∈ listInsert l x ↔ y = x ∨ y ∈ l := by
  unfold listInsert
  split
  · constructor
    · exact fun h => Or.inr h
    · rintro (rfl | h) <;> assumption
  · simp [List.mem_append, or_comm]

theorem listInsert_of_mem {l : List NodeId} {x : NodeId} (h : x ∈ l) :
    listInsert l x = l := by
  unfold listInsert
  simp [h]

theorem nodup_listInsert {l : List NodeId} {x : NodeId} (h : l.Nodup) :
    (listInsert l x).Nodup := by
  unfold listInsert
  split
  · exact h
  · next hx => simpa [List.nodup_append] using ⟨h, hx⟩

theorem nodes_add_edge (g : Graph) (a b : NodeId) :
    (g.add_edge a b).nodes = listInsert (listInsert g.nodes a) b := rfl

theorem edges_add_edge (g : Graph) (a b : NodeId) :
    (g.add_edge a b).edges = g.edges ++ [(a, b)] := rfl

theorem adjacency_add_edge (g : Graph) (a b n : NodeId) :
    (g.add_edge a b).adjacency_list n =
      if n = b then
        some ((if b = a then g.neighbors a ++ [b] else g.neighbors b) ++ [a])
      else if n = a then some (g.neighbors a ++ [b])
      else g.adjacency_list n := by
  unfold Graph.add_edge Graph.neighbors
  by_cases hb : n = b <;> by_cases ha : n = a <;>
    simp [hb, ha] <;> split <;> simp_all

theorem neighbors_add_edge_length (g : Graph) (a b n : NodeId) :
    ((g.add_edge a b).neighbors n).length =
      (g.neighbors n).length + (if n = a then 1 else 0) + (if n = b then 1 else 0) := by
  unfold Graph.neighbors
  rw [adjacency_add_edge]
  by_cases hb : n = b <;> by_cases ha : n = a <;>
    subst_eqs <;> simp_all [Graph.neighbors]

theorem mem_neighbors_add_edge_of_mem (g : Graph) (a b n x : NodeId)
    (h : x ∈ g.neighbors n) : x ∈ (g.add_edge a b).neighbors n := by
  unfold Graph.neighbors at *
  rw [adjacency_add_edge]
  by_cases hb : n = b <;> by_cases ha : n = a <;>
    subst_eqs <;> simp_all [Graph.neighbors]

theorem self_mem_neighbors_add_edge (g : Graph) (a b : NodeId) :
    b ∈ (g.add_edge a b).neighbors a ∧ a ∈ (g.add_edge a b).neighbors b := by
  unfold Graph.neighbors
  rw [adjacency_add_edge, adjacency_add_edge]
  by_cases hab : a = b
  · subst hab
    simp [Graph.neighbors]
  · have hba : ¬ b = a := fun h => hab h.symm
    simp [Graph.neighbors, hab, hba]

theorem adjacency_add_edge_isSome (g : Graph) (a b n : NodeId) :
    ((g.add_edge a b).adjacency_list n).isSome ↔
      n = a ∨ n = b ∨ (g.adjacency_list n).isSome := by
  rw [adjacency_add_edge]
  by_cases hb : n = b <;> by_cases ha : n = a <;> subst_eqs <;> simp_all

theorem buildGraph_append (es : List (NodeId × NodeId)) (a b : NodeId) :
    buildGraph (es ++ [(a, b)]) = (buildGraph es).add_edge a b := by
  unfold buildGraph
  rw [List.foldl_append]
  rfl

/-! ### Claim C9: neighbors of a node with no adjacency entry -/

/-- C9: for every graph and every node with no adjacency-list entry, the
neighbors operation returns the empty sequence rather than failing. -/
theorem neighbors_of_no_entry (g : Graph) (n : NodeId)
    (h : g.adjacency_list n = none) : g.neighbors n = [] := by
  unfold Graph.neighbors
  rw [h]
  rfl

/-- Witness for C9: the fresh graph has no adjacency entry for node 0, and
neighbors returns the empty list there. -/
theorem neighbors_of_no_entry_witness :
    Graph.new.adjacency_list 0 = none ∧ Graph.new.neighbors 0 = [] :=
  ⟨rfl, neighbors_of_no_entry Graph.new 0 rfl⟩

/-! ### Claim C3: repeated add_edge is not idempotent on adjacency lists -/

/-- C3 counterexample: for the edge (0,1), calling add_edge twice does leave
the node set unchanged, but duplicates the adjacency entries, so the combined
state (node set and both adjacency lists) after two calls differs from the
state after one call. -/
theorem add_edge_not_idempotent :
    ¬ (((Graph.new.add_edge 0 1).add_edge 0 1).nodes = (Graph.new.add_edge 0 1).nodes ∧
       ((Graph.new.add_edge 0 1).add_edge 0 1).adjacency_list 0 =
         (Graph.new.add_edge 0 1).adjacency_list 0 ∧
       ((Graph.new.add_edge 0 1).add_edge 0 1).adjacency_list 1 =
         (Graph.new.add_edge 0 1).adjacency_list 1) := by
  intro h
  have h2 := h.2.1
  simp [Graph.add_edge, Graph.new, listInsert] at h2

/-- C3 amended: a second add_edge(a,b) call leaves the node set equal to its
state after one call, but appends one more copy of b to a's adjacency list and
one more copy of a to b's (two more copies of a to a's list for a self-loop):
node-set extension is idempotent, adjacency extension accumulates parallel
edges. -/
theorem add_edge_node_idempotent_adjacency_appends (g : Graph) (a b : NodeId) :
    ((g.add_edge a b).add_edge a b).nodes = (g.add_edge a b).nodes ∧
    ((g.add_edge a b).add_edge a b).adjacency_list a =
      some ((g.add_edge a b).neighbors a ++ if a = b then [b, a] else [b]) ∧
    ((g.add_edge a b).add_edge a b).adjacency_list b =
      some ((g.add_edge a b).neighbors b ++ if a = b then [b, a] else [a]) := by
  refine ⟨?_, ?_, ?_⟩
  · rw [nodes_add_edge]
    have ha : a ∈ (g.add_edge a b).nodes := by
      rw [nodes_add_edge]
      exact mem_listInsert.mpr (Or.inr (mem_listInsert.mpr (Or.inl rfl)))
    have hb : b ∈ (g.add_edge a b).nodes := by
      rw [nodes_add_edge]
      exact mem_listInsert.mpr (Or.inl rfl)
    rw [listInsert_of_mem ha, listInsert_of_mem hb]
  · rw [adjacency_add_edge]
    by_cases hab : a = b <;> simp [hab]
  · rw [adjacency_add_edge]
    by_cases hab : a = b
    · subst hab
      simp
    · have hba : ¬ b = a := fun h => hab h.symm
      simp [hab, hba]

/-! ### The construction invariant of the graph model -/

/-- Sum of the adjacency-list lengths over the node set. -/
def totalDeg (g : Graph) : Nat :=
  Finset.sum g.nodes.toFinset (fun n => (g.neighbors n).length)

theorem toFinset_listInsert (l : List NodeId) (x : NodeId) :
    (listInsert l x).toFinset = insert x l.toFinset := by
  ext y
  simp [mem_listInsert]

/-- Invariant holding for every graph reachable from Graph::new by add_edge
calls: the node set is duplicate-free, a node has an adjacency entry exactly
when it is in the node set, every recorded edge has both endpoints in the node
set with each endpoint in the other one's adjacency list, and the adjacency
lengths sum to twice the edge count. -/
structure GraphInv (g : Graph) : Prop where
  nodup : g.nodes.Nodup
  adj_iff : ∀ n, (g.adjacency_list n).isSome ↔ n ∈ g.nodes
  edge_closed : ∀ e ∈ g.edges, e.1 ∈ g.nodes ∧ e.2 ∈ g.nodes ∧
    e.2 ∈ g.neighbors e.1 ∧ e.1 ∈ g.neighbors e.2
  deg_sum : totalDeg g = 2 * g.edges.length

theorem inv_new : GraphInv Graph.new := by
  refine ⟨List.nodup_nil, ?_, ?_, ?_⟩
  · intro n
    simp [Graph.new]
  · intro e he
    simp [Graph.new] at he
  · simp [totalDeg, Graph.new]

theorem neighbors_eq_nil_of_not_mem (g : Graph) (hg : GraphInv g) (n : NodeId)
    (h : n ∉ g.nodes) : g.neighbors n = [] := by
  have : ¬ (g.adjacency_list n).isSome := fun hs => h ((hg.adj_iff n).mp hs)
  rw [Option.not_isSome_iff_eq_none] at this
  unfold Graph.neighbors
  rw [this]
  rfl

theorem inv_add_edge (g : Graph) (a b : NodeId) (hg : GraphInv g) :
    GraphInv (g.add_edge a b) := by
  have hmem_a : a ∈ (g.add_edge a b).nodes := by
    rw [nodes_add_edge]
    exact mem_listInsert.mpr (Or.inr (mem_listInsert.mpr (Or.inl rfl)))
  have hmem_b : b ∈ (g.add_edge a b).nodes := by
    rw [nodes_add_edge]
    exact mem_listInsert.mpr (Or.inl rfl)
  refine ⟨?_, ?_, ?_, ?_⟩
  · rw [nodes_add_edge]
    exact nodup_listInsert (nodup_listInsert hg.nodup)
  · intro n
    rw [adjacency_add_edge_isSome, nodes_add_edge, mem_listInsert, mem_listInsert,
      hg.adj_iff]
    tauto
  · intro e he
    rw [edges_add_edge] at he
    rcases List.mem_append.mp he with hold | hnew
    · obtain ⟨h1, h2, h3, h4⟩ := hg.edge_closed e hold
      refine ⟨?_, ?_, ?_, ?_⟩
      · rw [nodes_add_edge]
        exact mem_listInsert.mpr (Or.inr (mem_listInsert.mpr (Or.inr h1)))
      · rw [nodes_add_edge]
        exact mem_listInsert.mpr (Or.inr (mem_listInsert.mpr (Or.inr h2)))
      · exact mem_neighbors_add_edge_of_mem g a b e.1 e.2 h3
      · exact mem_neighbors_add_edge_of_mem g a b e.2 e.1 h4
    · have he' : e = (a, b) := by simpa using hnew
      subst he'
      exact ⟨hmem_a, hmem_b, (self_mem_neighbors_add_edge g a b).1,
        (self_mem_neighbors_add_edge g a b).2⟩
  · have hnodes : (g.add_edge a b).nodes.toFinset =
        insert b (insert a g.nodes.toFinset) := by
      rw [nodes_add_edge, toFinset_listInsert, toFinset_listInsert]
    have hsub : g.nodes.toFinset ⊆ insert b (insert a g.nodes.toFinset) :=
      fun x hx => Finset.mem_insert_of_mem (Finset.mem_insert_of_mem hx)
    have hzero : ∀ n ∈ insert b (insert a g.nodes.toFinset),
        n ∉ g.nodes.toFinset → (g.neighbors n).length = 0 := by
      intro n _ hn
      rw [neighbors_eq_nil_of_not_mem g hg n (fun hc => hn (List.mem_toFinset.mpr hc))]
      rfl
    have hstep : totalDeg (g.add_edge a b) =
        Finset.sum (insert b (insert a g.nodes.toFinset))
          (fun n => (g.neighbors n).length + (if n = a then 1 else 0) +
            (if n = b then 1 else 0)) := by
      rw [totalDeg, hnodes]
      exact Finset.sum_congr rfl (fun n _ => neighbors_add_edge_length g a b n)
    rw [hstep, Finset.sum_add_distrib, Finset.sum_add_distrib,
      Finset.sum_ite_eq' _ a (fun _ => 1), Finset.sum_ite_eq' _ b (fun _ => 1),
      ← Finset.sum_subset hsub hzero]
    have ha' : a ∈ insert b (insert a g.nodes.toFinset) :=
      Finset.mem_insert_of_mem (Finset.mem_insert_self a _)
    have hb' : b ∈ insert b (insert a g.nodes.toFinset) :=
      Finset.mem_insert_self b _
    rw [if_pos ha', if_pos hb', edges_add_edge]
    have := hg.deg_sum
    rw [totalDeg] at this
    rw [this]
    simp
    omega

theorem inv_foldl (es : List (NodeId × NodeId)) :
    ∀ g : Graph, GraphInv g →
      GraphInv (es.foldl (fun g e => g.add_edge e.1 e.2) g) := by
  induction es with
  | nil => exact fun g hg => hg
  | cons e es ih => exact fun g hg => ih _ (inv_add_edge g e.1 e.2 hg)

theorem inv_buildGraph (es : List (NodeId × NodeId)) : GraphInv (buildGraph es) :=
  inv_foldl es Graph.new inv_new

theorem buildGraph_edges (es : List (NodeId × NodeId)) :
    (buildGraph es).edges = es := by
  have aux : ∀ (l : List (NodeId × NodeId)) (g : Graph),
      (l.foldl (fun g e => g.add_edge e.1 e.2) g).edges = g.edges ++ l := by
    intro l
    induction l with
    | nil => intro g; simp
    | cons e l ih =>
      intro g
      rw [List.foldl_cons, ih, edges_add_edge]
      simp
  simpa using aux es Graph.new

/-- With every adjacency lookup succeeding, the one-pass degree computation
returns the table pairing each node of the node set with its adjacency-list
length. -/
theorem precompute_degrees_eq (g : Graph)
    (h : ∀ n ∈ g.nodes, (g.adjacency_list n).isSome) :
    g.precompute_degrees =
      some (g.nodes.map (fun n => (n, (g.neighbors n).length))) := by
  unfold Graph.precompute_degrees
  have aux : ∀ l : List NodeId, (∀ n ∈ l, (g.adjacency_list n).isSome) →
      l.mapM (fun n => (g.adjacency_list n).map (fun v => (n, v.length))) =
        some (l.map (fun n => (n, (g.neighbors n).length))) := by
    intro l
    induction l with
    | nil => intro _; rfl
    | cons n l ih =>
      intro hl
      have hn : (g.adjacency_list n).isSome := hl n (List.mem_cons_self n l)
      obtain ⟨v, hv⟩ := Option.isSome_iff_exists.mp hn
      have hrest := ih (fun x hx => hl x (List.mem_cons_of_mem n hx))
      simp only [List.mapM_cons, hv, Option.map_some, hrest]
      simp [Graph.neighbors, hv]
  exact aux g.nodes h

/-! ### Claim C4: adjacency symmetry and node closure of recorded edges -/

/-- C4: in every graph built by add_edge calls, each recorded edge (a,b) puts
b in a's neighbor list and a in b's neighbor list, and both endpoints are in
the node set. -/
theorem recorded_edge_symmetric (es : List (NodeId × NodeId)) (a b : NodeId)
    (h : (a, b) ∈ (buildGraph es).edges) :
    b ∈ (buildGraph es).neighbors a ∧ a ∈ (buildGraph es).neighbors b ∧
    a ∈ (buildGraph es).nodes ∧ b ∈ (buildGraph es).nodes := by
  obtain ⟨h1, h2, h3, h4⟩ := (inv_buildGraph es).edge_closed (a, b) h
  exact ⟨h3, h4, h1, h2⟩

/-- Witness for C4 on the single-edge graph (0,1). -/
theorem recorded_edge_symmetric_witness :
    ((0 : NodeId), (1 : NodeId)) ∈ (buildGraph [(0, 1)]).edges ∧
    ((1 : NodeId) ∈ (buildGraph [(0, 1)]).neighbors 0 ∧
      (0 : NodeId) ∈ (buildGraph [(0, 1)]).neighbors 1 ∧
      (0 : NodeId) ∈ (buildGraph [(0, 1)]).nodes ∧
      (1 : NodeId) ∈ (buildGraph [(0, 1)]).nodes) :=
  ⟨by decide, recorded_edge_symmetric [(0, 1)] 0 1 (by decide)⟩

/-! ### Claim C5: the degree table and parallel-edge multiplicity -/

/-- C5: on every built graph, precompute_degrees succeeds and maps every node
of the node set to its adjacency-list length; appending one more copy of an
edge (a,b) makes the degree of a strictly larger (by 2 for a self-loop, by 1
otherwise), so parallel edges increase the recorded degree. -/
theorem precompute_degrees_spec (es : List (NodeId × NodeId)) :
    (buildGraph es).precompute_degrees =
      some ((buildGraph es).nodes.map (fun n => (n, ((buildGraph es).neighbors n).length))) ∧
    ∀ a b : NodeId,
      ((buildGraph (es ++ [(a, b)])).neighbors a).length =
        ((buildGraph es).neighbors a).length + (if a = b then 2 else 1) := by
  constructor
  · exact precompute_degrees_eq _ (fun n hn => ((inv_buildGraph es).adj_iff n).mpr hn)
  · intro a b
    rw [buildGraph_append, neighbors_add_edge_length]
    by_cases hab : a = b <;> simp [hab]

/-! ### Claim C10: the degree computation never hits a missing key -/

/-- C10: on every graph built by add_edge calls, every node of the node set
has an adjacency-list entry, so the indexing done by precompute_degrees never
hits a missing key and the computation always succeeds. -/
theorem precompute_degrees_total (es : List (NodeId × NodeId)) :
    ((buildGraph es).nodes.all
      (fun n => ((buildGraph es).adjacency_list n).isSome)) = true ∧
    ((buildGraph es).precompute_degrees).isSome = true := by
  constructor
  · rw [List.all_eq_true]
    exact fun n hn => ((inv_buildGraph es).adj_iff n).mpr hn
  · rw [precompute_degrees_eq _ (fun n hn => ((inv_buildGraph es).adj_iff n).mpr hn)]
    rfl

/-! ### Partition Normalization (spec section 4.7) -/

/-- Modelled from the spec: utils::normalize_community_ids is not under src/.
Spec section 4.7: community ids are reassigned as small consecutive integers,
assigned in the order their originating label is first encountered when
iterating nodes in ascending NodeId order (the iteration order of the BTreeMap
backing a Partition).  The mapping accumulates the relabeling decided so far
and next is the next fresh id. -/
def renumber (mapping : List (CommunityId × CommunityId)) (next : CommunityId) :
    Partition → Partition
  | [] => []
  | e :: rest =>
    match List.lookup e.2 mapping with
    | some c => (e.1, c) :: renumber mapping next rest
    | none => (e.1, next) :: renumber ((e.2, next) :: mapping) (next + 1) rest

/-- Modelled from the spec: the canonical relabeling of spec section 4.7,
started with the empty mapping and first fresh id 0. -/
def normalize_community_ids (p : Partition) : Partition := renumber [] 0 p

/-- A partition's labels are canonical above next: every label is either an
already-issued id below next or extends the consecutive issue order. -/
def canonicalFrom : CommunityId → Partition → Prop
  | _, [] => True
  | next, e :: rest =>
    (0 ≤ e.2 ∧ e.2 < next ∧ canonicalFrom next rest) ∨
    (e.2 = next ∧ canonicalFrom (next + 1) rest)

@[simp] theorem canonicalFrom_nil (next : CommunityId) :
    canonicalFrom next [] = True := rfl

@[simp] theorem canonicalFrom_cons (next : CommunityId) (e : NodeId × CommunityId)
    (rest : Partition) :
    canonicalFrom next (e :: rest) =
      ((0 ≤ e.2 ∧ e.2 < next ∧ canonicalFrom next rest) ∨
       (e.2 = next ∧ canonicalFrom (next + 1) rest)) := rfl

theorem renumber_cons_some {mapping : List (CommunityId × CommunityId)}
    {next : CommunityId} {e : NodeId × CommunityId} {rest : Partition}
    {c : CommunityId} (h : List.lookup e.2 mapping = some c) :
    renumber mapping next (e :: rest) = (e.1, c) :: renumber mapping next rest := by
  conv_lhs => rw [renumber]
  rw [h]

theorem renumber_cons_none {mapping : List (CommunityId × CommunityId)}
    {next : CommunityId} {e : NodeId × CommunityId} {rest : Partition}
    (h : List.lookup e.2 mapping = none) :
    renumber mapping next (e :: rest) =
      (e.1, next) :: renumber ((e.2, next) :: mapping) (next + 1) rest := by
  conv_lhs => rw [renumber]
  rw [h]

/-- Extending an id-mapping for [0, next) with the fresh pair (next, next)
gives the id-mapping for [0, next + 1). -/
theorem lookup_extend (mapping : List (CommunityId × CommunityId))
    (next : CommunityId) (hnext : 0 ≤ next)
    (hmap : ∀ c, List.lookup c mapping =
      if 0 ≤ c ∧ c < next then some c else none) :
    ∀ c, List.lookup c ((next, next) :: mapping) =
      if 0 ≤ c ∧ c < next + 1 then some c else none := by
  intro c
  by_cases hc : c = next
  · subst hc
    simp [List.lookup, hnext, lt_add_one c]
  · have hcb : (c == next) = false := by simp [hc]
    simp only [List.lookup, hcb]
    rw [hmap]
    by_cases h1 : 0 ≤ c ∧ c < next
    · rw [if_pos h1, if_pos ⟨h1.1, lt_trans h1.2 (lt_add_one next)⟩]
    · rw [if_neg h1,
        if_neg (fun h2 => h1 ⟨h2.1, lt_of_le_of_ne (Int.lt_add_one_iff.mp h2.2) hc⟩)]

theorem lookup_nil_id :
    ∀ c : CommunityId, List.lookup c ([] : List (CommunityId × CommunityId)) =
      if 0 ≤ c ∧ c < 0 then some c else none := by
  intro c
  rw [if_neg (fun h => lt_irrefl c (lt_of_lt_of_le h.2 h.1))]
  rfl

/-- Renumbering a partition that is already canonical above next, with the
id-mapping for [0, next), changes nothing. -/
theorem renumber_id (p : Partition) :
    ∀ (mapping : List (CommunityId × CommunityId)) (next : CommunityId),
      0 ≤ next →
      (∀ c, List.lookup c mapping = if 0 ≤ c ∧ c < next then some c else none) →
      canonicalFrom next p → renumber mapping next p = p := by
  induction p with
  | nil => intro mapping next _ _ _; rfl
  | cons e rest ih =>
    intro mapping next hnext hmap hcan
    rw [canonicalFrom_cons] at hcan
    rcases hcan with ⟨h0, hlt, hrest⟩ | ⟨heq, hrest⟩
    · have hlook : List.lookup e.2 mapping = some e.2 := by
        rw [hmap, if_pos ⟨h0, hlt⟩]
      rw [renumber_cons_some hlook, ih mapping next hnext hmap hrest,
        Prod.mk.eta]
    · have hlook : List.lookup e.2 mapping = none := by
        rw [hmap, if_neg (fun h => lt_irrefl e.2 (lt_of_lt_of_eq h.2 heq.symm))]
      have hmap' : ∀ c, List.lookup c ((e.2, next) :: mapping) =
          if 0 ≤ c ∧ c < next + 1 then some c else none := by
        rw [heq]
        exact lookup_extend mapping next hnext hmap
      rw [renumber_cons_none hlook,
        ih _ (next + 1) (le_trans hnext (le_of_lt (lt_add_one next))) hmap' hrest,
        ← heq, Prod.mk.eta]

/-- The output of renumber is canonical above next whenever every id already
issued by the accumulated mapping lies in [0, next). -/
theorem renumber_canonical (p : Partition) :
    ∀ (mapping : List (CommunityId × CommunityId)) (next : CommunityId),
      0 ≤ next →
      (∀ k c, List.lookup k mapping = some c → 0 ≤ c ∧ c < next) →
      canonicalFrom next (renumber mapping next p) := by
  induction p with
  | nil => intro mapping next _ _; trivial
  | cons e rest ih =>
    intro mapping next hnext hmap
    cases hl : List.lookup e.2 mapping with
    | some c =>
      obtain ⟨hc0, hcn⟩ := hmap e.2 c hl
      rw [renumber_cons_some hl, canonicalFrom_cons]
      exact Or.inl ⟨hc0, hcn, ih mapping next hnext hmap⟩
    | none =>
      rw [renumber_cons_none hl, canonicalFrom_cons]
      refine Or.inr ⟨rfl, ih _ (next + 1)
        (le_trans hnext (le_of_lt (lt_add_one next))) ?_⟩
      intro k c hk
      by_cases hke : k = e.2
      · subst hke
        simp only [List.lookup, beq_self_eq_true] at hk
        injection hk with hc
        subst hc
        exact ⟨hnext, lt_add_one next⟩
      · have hkb : (k == e.2) = false := by simp [hke]
        simp only [List.lookup, hkb] at hk
        obtain ⟨h0, hn⟩ := hmap k c hk
        exact ⟨h0, lt_trans hn (lt_add_one next)⟩

theorem normalize_canonical (p : Partition) :
    canonicalFrom 0 (normalize_community_ids p) :=
  renumber_canonical p [] 0 le_rfl (fun _ _ h => Option.noConfusion h)

/-- Normalization is idempotent: normalizing an already-normalized partition
returns it unchanged. -/
theorem normalize_idempotent (p : Partition) :
    normalize_community_ids (normalize_community_ids p) = normalize_community_ids p :=
  renumber_id _ [] 0 le_rfl lookup_nil_id (normalize_canonical p)

/-! ### The PESA-II engine interface (src/mocd_pesa_ii/mod.rs) -/

/-- hypergrid::Solution, as used by mod.rs: a partition paired with its
objective vector (f64 objectives embedded as exact rationals). -/
structure Solution where
  partition : Partition
  objectives : List ℚ

/-- src/mocd_pesa_ii/mod.rs: struct MocdPesaII. -/
structure MocdPesaII where
  graph : Graph
  debug_level : Int
  rand_networks : Nat
  pop_size : Nat
  num_gens : Nat
  cross_rate : ℚ
  mut_rate : ℚ

/-- src/mocd_pesa_ii/mod.rs: MocdPesaII::new.  The edge extraction from the
host graph object is the out-of-scope marshalling boundary, so the edge list
is taken as already extracted.  The constructor builds the internal graph and
stores every configuration value exactly as given: the code contains no
validation, and the error channel (Rust PyResult, embedded as Except) is never
used on the configuration path. -/
def MocdPesaII.new (edges : List (NodeId × NodeId)) (debug_level : Int)
    (rand_networks pop_size num_gens : Nat) (cross_rate mut_rate : ℚ) :
    Except String MocdPesaII :=
  Except.ok
    { graph := buildGraph edges
      debug_level := debug_level
      rand_networks := rand_networks
      pop_size := pop_size
      num_gens := num_gens
      cross_rate := cross_rate
      mut_rate := mut_rate }

/-! ### Claim C2: construction does not validate the configuration -/

/-- C2 counterexample: constructing with population size 0 and negative
crossover and mutation rates succeeds; no error surfaces to the caller. -/
theorem new_accepts_invalid_config :
    (MocdPesaII.new [] 0 3 0 500 (-1) (-1)).toOption.isSome = true := rfl

/-- C2 amended: construction never validates the configuration: a zero
population size (and any rate values) is accepted without error, and the
values are stored verbatim: never silently corrected, but never rejected
either. -/
theorem new_stores_config_verbatim (edges : List (NodeId × NodeId)) (dl : Int)
    (rn ng : Nat) (cr mr : ℚ) :
    ∃ m, MocdPesaII.new edges dl rn 0 ng cr mr = Except.ok m ∧
      m.pop_size = 0 ∧ m.cross_rate = cr ∧ m.mut_rate = mr ∧
      m.graph = buildGraph edges :=
  ⟨_, rfl, rfl, rfl, rfl, rfl⟩

/-! ### The evolutionary phase as an abstract engine function -/

abbrev DegreeTable := List (NodeId × Nat)

/-- Modelled from the spec: mocd_pesa_ii::evolutionary::evolutionary_phase is
not under src/.  Only its interface is visible from mod.rs (graph, debug
level, generation budget, population size, crossover rate, mutation rate,
degree table, returning the archive).  The theorems below quantify over every
function of this signature, so nothing about the search behavior is
assumed. -/
abbrev Engine :=
  Graph → Int → Nat → Nat → ℚ → ℚ → DegreeTable → List Solution

/-- src/mocd_pesa_ii/mod.rs: MocdPesaII::envolve: run evolutionary_phase on
the stored graph with the stored parameters and the graph's precomputed
degree table (the degree table's unreachable panic is the none case). -/
def MocdPesaII.envolve (engine : Engine) (m : MocdPesaII) :
    Option (List Solution) :=
  (m.graph.precompute_degrees).map
    (fun degrees =>
      engine m.graph m.debug_level m.num_gens m.pop_size m.cross_rate
        m.mut_rate degrees)

/-- src/mocd_pesa_ii/mod.rs: MocdPesaII::generate_pareto_front: one
(normalized partition, objective vector) pair per archive member. -/
def MocdPesaII.generate_pareto_front (engine : Engine) (m : MocdPesaII) :
    Option (List (Partition × List ℚ)) :=
  (m.envolve engine).map
    (fun first_front =>
      first_front.map
        (fun ind => (normalize_community_ids ind.partition, ind.objectives)))

/-- Modelled from the spec: model_selection::max_q_selection is not under
src/.  Spec section 4.6 Max-Q: pick the front member with the highest
modularity, which is the lowest intra + inter sum, ties broken by encounter
order; none on an empty archive (where the Rust selection has no member to
return). -/
def max_q_selection (archive : List Solution) : Option Solution :=
  archive.foldl
    (fun best s =>
      match best with
      | none => some s
      | some b => if s.objectives.sum < b.objectives.sum then some s else some b)
    none

/-- src/mocd_pesa_ii/mod.rs: MocdPesaII::max_q: select from the archive, then
normalize the selected member's partition. -/
def MocdPesaII.max_q (engine : Engine) (m : MocdPesaII) : Option Partition := do
  let archive ← m.envolve engine
  let best ← max_q_selection archive
  pure (normalize_community_ids best.partition)

/-- Modelled from the spec: model_selection::generate_random_networks is not
under src/.  The spec asks for the configured number of randomized graphs
preserving node and edge counts; the randomization itself (degree-preserving
edge shuffling) is not modelled, only that exactly n comparison graphs derived
from the source graph are produced. -/
def generate_random_networks (g : Graph) (n : Nat) : List Graph :=
  List.replicate n g

/-- Single-objective modularity of a solution: Q = 1 - (intra + inter). -/
def solutionQ (s : Solution) : ℚ := 1 - s.objectives.sum

/-- Best modularity across the ensemble of random-graph archives. -/
def bestRandomQ (random_archives : List (List Solution)) : ℚ :=
  random_archives.foldl
    (fun acc arch => arch.foldl (fun a s => max a (solutionQ s)) acc) 0

/-- Modelled from the spec: model_selection::min_max_selection is not under
src/ and spec section 4.6 leaves the exact significance metric open as an
implementation choice.  Modelled as a deterministic representative: pick the
original-front member with the largest deviation of its modularity above the
best modularity found across the random ensemble, ties broken by encounter
order; none on an empty archive. -/
def min_max_selection (archive : List Solution)
    (random_archives : List (List Solution)) : Option Solution :=
  archive.foldl
    (fun best s =>
      match best with
      | none => some s
      | some b =>
        if solutionQ b - bestRandomQ random_archives <
            solutionQ s - bestRandomQ random_archives
        then some s else some b)
    none

/-- src/mocd_pesa_ii/mod.rs: MocdPesaII::min_max: run the engine on the stored
graph, then once per generated random network with the same configuration
parameters and the random graph's own precomputed degree table, select against
the ensemble, and normalize the selected member's partition. -/
def MocdPesaII.min_max (engine : Engine) (m : MocdPesaII) : Option Partition := do
  let archive ← m.envolve engine
  let random_archives ← (generate_random_networks m.graph m.rand_networks).mapM
    (fun random_graph => (random_graph.precompute_degrees).map
      (fun random_degrees =>
        engine random_graph m.debug_level m.num_gens m.pop_size m.cross_rate
          m.mut_rate random_degrees))
  let best ← min_max_selection archive random_archives
  pure (normalize_community_ids best.partition)

/-! ### Claim C6: min_max performs rand_networks extra engine runs -/

/-- One invocation of the evolutionary engine together with its arguments. -/
structure EngineCall where
  call_graph : Graph
  call_debug_level : Int
  call_num_gens : Nat
  call_pop_size : Nat
  call_cross_rate : ℚ
  call_mut_rate : ℚ

/-- The evolutionary_phase invocations performed by MocdPesaII::min_max, in
program order: one on the stored graph (inside envolve), then one per
generated random comparison graph. -/
def MocdPesaII.min_max_engine_calls (m : MocdPesaII) : List EngineCall :=
  { call_graph := m.graph
    call_debug_level := m.debug_level
    call_num_gens := m.num_gens
    call_pop_size := m.pop_size
    call_cross_rate := m.cross_rate
    call_mut_rate := m.mut_rate } ::
  (generate_random_networks m.graph m.rand_networks).map
    (fun rg =>
      { call_graph := rg
        call_debug_level := m.debug_level
        call_num_gens := m.num_gens
        call_pop_size := m.pop_size
        call_cross_rate := m.cross_rate
        call_mut_rate := m.mut_rate })

/-- C6: min_max triggers exactly rand_networks engine runs beyond the run on
the original graph, each with the same configuration parameters (debug level,
generation budget, population size, crossover rate, mutation rate). -/
theorem min_max_runs_rand_networks (m : MocdPesaII) :
    (m.min_max_engine_calls).tail.length = m.rand_networks ∧
    ((m.min_max_engine_calls).tail.all
      (fun c => decide (c.call_debug_level = m.debug_level) &&
        decide (c.call_num_gens = m.num_gens) &&
        decide (c.call_pop_size = m.pop_size) &&
        decide (c.call_cross_rate = m.cross_rate) &&
        decide (c.call_mut_rate = m.mut_rate))) = true := by
  constructor
  · simp [MocdPesaII.min_max_engine_calls, generate_random_networks]
  · rw [List.all_eq_true]
    intro c hc
    simp only [MocdPesaII.min_max_engine_calls, generate_random_networks,
      List.tail_cons, List.mem_map, List.mem_replicate] at hc
    obtain ⟨rg, -, rfl⟩ := hc
    simp

/-! ### Claim C7: every public output is normalized -/

/-- C7: generate_pareto_front returns one (normalized partition, objectives)
pair per raw archive member, and max_q and min_max both return the
normalization of the selected front member, so every partition leaving the
public interface satisfies the normalization fixed point, for every possible
engine behavior. -/
theorem public_outputs_normalized (engine : Engine) (m : MocdPesaII) :
    (m.generate_pareto_front engine) =
      (m.envolve engine).map
        (fun front => front.map
          (fun ind => (normalize_community_ids ind.partition, ind.objectives))) ∧
    (m.generate_pareto_front engine).map List.length =
      (m.envolve engine).map List.length ∧
    Option.all
      (fun front => front.all (fun e => normalize_community_ids e.1 == e.1))
      (m.generate_pareto_front engine) = true ∧
    Option.all (fun p => normalize_community_ids p == p)
      (m.max_q engine) = true ∧
    Option.all (fun p => normalize_community_ids p == p)
      (m.min_max engine) = true := by
  refine ⟨rfl, ?_, ?_, ?_, ?_⟩
  · cases h : m.envolve engine <;>
      simp [MocdPesaII.generate_pareto_front, h]
  · cases h : m.envolve engine with
    | none => simp [MocdPesaII.generate_pareto_front, h]
    | some front =>
      simp only [MocdPesaII.generate_pareto_front, h, Option.map_some',
        Option.all, List.all_eq_true]
      intro e he
      rw [List.mem_map] at he
      obtain ⟨ind, -, rfl⟩ := he
      simp [normalize_idempotent]
  · unfold MocdPesaII.max_q
    cases h1 : m.envolve engine with
    | none => rfl
    | some archive =>
      show Option.all (fun p => normalize_community_ids p == p)
        ((max_q_selection archive).bind
          (fun best => some (normalize_community_ids best.partition))) = true
      cases h2 : max_q_selection archive with
      | none => rfl
      | some best =>
        show (normalize_community_ids (normalize_community_ids best.partition) ==
          normalize_community_ids best.partition) = true
        rw [normalize_idempotent]
        exact beq_self_eq_true _
  · unfold MocdPesaII.min_max
    cases h1 : m.envolve engine with
    | none => rfl
    | some archive =>
      show Option.all (fun p => normalize_community_ids p == p)
        (((generate_random_networks m.graph m.rand_networks).mapM
          (fun (random_graph : Graph) => (random_graph.precompute_degrees).map
            (fun random_degrees =>
              engine random_graph m.debug_level m.num_gens m.pop_size
                m.cross_rate m.mut_rate random_degrees))).bind
          (fun random_archives =>
            (min_max_selection archive random_archives).bind
              (fun best => some (normalize_community_ids best.partition)))) = true
      cases h2 : (generate_random_networks m.graph m.rand_networks).mapM
          (fun (random_graph : Graph) => (random_graph.precompute_degrees).map
            (fun random_degrees =>
              engine random_graph m.debug_level m.num_gens m.pop_size
                m.cross_rate m.mut_rate random_degrees)) with
      | none => rfl
      | some random_archives =>
        show Option.all (fun p => normalize_community_ids p == p)
          ((min_max_selection archive random_archives).bind
            (fun best => some (normalize_community_ids best.partition))) = true
        cases h3 : min_max_selection archive random_archives with
        | none => rfl
        | some best =>
          show (normalize_community_ids (normalize_community_ids best.partition) ==
            normalize_community_ids best.partition) = true
          rw [normalize_idempotent]
          exact beq_self_eq_true _

/-! ### Claim C8: determinism of envolve under equal configuration -/

/-- C8: the embedded run is a pure function of the graph and the
configuration: two engine instances with equal graph, debug level, generation
budget, population size, crossover rate and mutation rate produce identical
fronts on repeated envolve calls, whatever the (internally seeded)
evolutionary phase does. -/
theorem envolve_deterministic (engine : Engine) (m1 m2 : MocdPesaII)
    (hg : m1.graph = m2.graph) (hd : m1.debug_level = m2.debug_level)
    (hn : m1.num_gens = m2.num_gens) (hp : m1.pop_size = m2.pop_size)
    (hc : m1.cross_rate = m2.cross_rate) (hm : m1.mut_rate = m2.mut_rate) :
    m1.envolve engine = m2.envolve engine := by
  unfold MocdPesaII.envolve
  rw [hg, hd, hn, hp, hc, hm]

/-- An arbitrary concrete engine behavior for the determinism witness. -/
def engineFixture : Engine := fun _ _ _ _ _ _ _ => []

/-- Two engine instances built with identical configuration. -/
def mFixture1 : MocdPesaII :=
  { graph := buildGraph [(0, 1)]
    debug_level := 0
    rand_networks := 3
    pop_size := 100
    num_gens := 500
    cross_rate := 4 / 5
    mut_rate := 1 / 5 }

def mFixture2 : MocdPesaII :=
  { graph := buildGraph [(0, 1)]
    debug_level := 0
    rand_networks := 3
    pop_size := 100
    num_gens := 500
    cross_rate := 4 / 5
    mut_rate := 1 / 5 }

/-- Witness for C8: the two identically configured instances yield identical
fronts. -/
theorem envolve_deterministic_witness :
    mFixture1.envolve engineFixture = mFixture2.envolve engineFixture :=
  envolve_deterministic engineFixture mFixture1 mFixture2 rfl rfl rfl rfl rfl rfl

/-! ### The fitness evaluator (spec section 4.2) -/

/-- Degree of a node as used by the fitness decomposition: its adjacency-list
length, which is what the precomputed degree table stores. -/
def degreeOf (g : Graph) (n : NodeId) : Nat := (g.neighbors n).length

/-- Whether an edge joins two nodes carrying the same community label. -/
def isIntraEdge (p : Partition) (e : NodeId × NodeId) : Bool :=
  match List.lookup e.1 p, List.lookup e.2 p with
  | some c1, some c2 => c1 == c2
  | _, _ => false

/-- Modelled from the spec: the intra-community loss term of
operators::get_modularity_from_partition (not under src/): one minus the
fraction of edges internal to a community; on a zero-edge graph the
convention intra = inter = 0 giving Q = 1 (spec section 8). -/
def intra (g : Graph) (p : Partition) : ℚ :=
  if g.edges.length = 0 then 0
  else 1 - ((g.edges.filter (isIntraEdge p)).length : ℚ) / (g.edges.length : ℚ)

/-- The set of community labels used by a partition. -/
def communities (p : Partition) : Finset CommunityId := (p.map Prod.snd).toFinset

/-- Total degree mass of community c: the summed degrees of the nodes that p
assigns to c. -/
def communityDegree (g : Graph) (p : Partition) (c : CommunityId) : Nat :=
  ((p.filter (fun e => e.2 == c)).map (fun e => degreeOf g e.1)).sum

/-- Modelled from the spec: the inter-community loss term: summed squared
fraction of per-community edge mass, with the zero-edge convention. -/
def inter (g : Graph) (p : Partition) : ℚ :=
  if g.edges.length = 0 then 0
  else Finset.sum (communities p)
    (fun c => ((communityDegree g p c : ℚ) / (2 * (g.edges.length : ℚ))) ^ 2)

/-- Modelled from the spec: operators::get_modularity_from_partition: the Shi
(2012) two-objective decomposition of Newman modularity, Q = 1 - intra -
inter. -/
def get_modularity_from_partition (p : Partition) (g : Graph) : ℚ :=
  1 - intra g p - inter g p

/-- src/lib.rs: the standalone fitness function: builds the internal graph
from the extracted edge list and evaluates the modularity decomposition. -/
def fitness (es : List (NodeId × NodeId)) (p : Partition) : ℚ :=
  get_modularity_from_partition p (buildGraph es)

/-- Splitting a list sum by the fibers of the label projection: summing the
per-community sums over any label set covering the list recovers the total
sum. -/
theorem sum_fiberwise_list (l : List (NodeId × CommunityId))
    (S : Finset CommunityId) (f : NodeId × CommunityId → ℕ)
    (h : ∀ e ∈ l, e.2 ∈ S) :
    Finset.sum S (fun c => ((l.filter (fun e => e.2 == c)).map f).sum) =
      (l.map f).sum := by
  induction l with
  | nil => simp
  | cons e l ih =>
    have he : e.2 ∈ S := h e (List.mem_cons_self e l)
    have ih' := ih (fun x hx => h x (List.mem_cons_of_mem e hx))
    have key : ∀ c ∈ S, (((e :: l).filter (fun x => x.2 == c)).map f).sum =
        (if e.2 = c then f e else 0) +
          ((l.filter (fun x => x.2 == c)).map f).sum := by
      intro c _
      rw [List.filter_cons]
      by_cases hc : e.2 = c
      · simp [hc]
      · have hcb : (e.2 == c) = false := by simp [hc]
        simp [hcb, hc]
    rw [Finset.sum_congr rfl key, Finset.sum_add_distrib, ih',
      Finset.sum_ite_eq S e.2 (fun _ => f e), if_pos he]
    simp

/-- For nonnegative summands the sum of squares is at most the square of the
sum. -/
theorem sum_sq_le_sq_sum (S : Finset CommunityId) (f : CommunityId → ℚ)
    (hf : ∀ c ∈ S, 0 ≤ f c) :
    Finset.sum S (fun c => (f c) ^ 2) ≤ (Finset.sum S f) ^ 2 := by
  induction S using Finset.cons_induction with
  | empty => simp
  | cons a s ha ih =>
    rw [Finset.sum_cons, Finset.sum_cons]
    have h1 : 0 ≤ f a := hf a (Finset.mem_cons_self a s)
    have h2 : ∀ c ∈ s, 0 ≤ f c := fun c hc => hf c (Finset.mem_cons.mpr (Or.inr hc))
    have h3 := ih h2
    have h4 : 0 ≤ Finset.sum s f := Finset.sum_nonneg h2
    nlinarith [h1, h3, h4]

/-- On a built graph, the community degree masses of a full-coverage partition
with unique keys sum to twice the edge count. -/
theorem sum_communityDegree (es : List (NodeId × NodeId)) (p : Partition)
    (hkeys : (p.map Prod.fst).Nodup)
    (hcov : (p.map Prod.fst).toFinset = (buildGraph es).nodes.toFinset) :
    Finset.sum (communities p) (fun c => communityDegree (buildGraph es) p c) =
      2 * (buildGraph es).edges.length := by
  have h1 : Finset.sum (communities p)
      (fun c => communityDegree (buildGraph es) p c) =
      (p.map (fun e => degreeOf (buildGraph es) e.1)).sum := by
    unfold communityDegree
    exact sum_fiberwise_list p (communities p)
      (fun e => degreeOf (buildGraph es) e.1)
      (fun e he => List.mem_toFinset.mpr (List.mem_map_of_mem Prod.snd he))
  have h2 : (p.map (fun e => degreeOf (buildGraph es) e.1)).sum =
      Finset.sum (p.map Prod.fst).toFinset (fun n => degreeOf (buildGraph es) n) := by
    rw [List.sum_toFinset _ hkeys, List.map_map]
    rfl
  have h3 : Finset.sum (p.map Prod.fst).toFinset
      (fun n => degreeOf (buildGraph es) n) = totalDeg (buildGraph es) := by
    rw [hcov]
    rfl
  rw [h1, h2, h3, (inv_buildGraph es).deg_sum]

/-! ### Claim C1: the modularity decomposition and its bounds -/

/-- C1: for every graph built from an extracted edge list and every partition
covering all of its nodes with unique keys, the standalone fitness operation
returns the scalar modularity Q = 1 - intra - inter, where the two loss terms
each lie in [0, 1]. -/
theorem fitness_modularity (es : List (NodeId × NodeId)) (p : Partition)
    (hkeys : (p.map Prod.fst).Nodup)
    (hcov : (p.map Prod.fst).toFinset = (buildGraph es).nodes.toFinset) :
    0 ≤ intra (buildGraph es) p ∧ intra (buildGraph es) p ≤ 1 ∧
    0 ≤ inter (buildGraph es) p ∧ inter (buildGraph es) p ≤ 1 ∧
    fitness es p = 1 - intra (buildGraph es) p - inter (buildGraph es) p := by
  by_cases hm : (buildGraph es).edges.length = 0
  · refine ⟨?_, ?_, ?_, ?_, rfl⟩ <;> simp [intra, inter, hm]
  · have hmpos : 0 < (buildGraph es).edges.length := Nat.pos_of_ne_zero hm
    have hmQ : (0:ℚ) < ((buildGraph es).edges.length : ℚ) := by exact_mod_cast hmpos
    have hk : ((buildGraph es).edges.filter (isIntraEdge p)).length ≤
        (buildGraph es).edges.length := List.length_filter_le _ _
    have hkQ : (((buildGraph es).edges.filter (isIntraEdge p)).length : ℚ) ≤
        ((buildGraph es).edges.length : ℚ) := by exact_mod_cast hk
    have hfrac0 : (0:ℚ) ≤
        (((buildGraph es).edges.filter (isIntraEdge p)).length : ℚ) /
          ((buildGraph es).edges.length : ℚ) := by positivity
    have hfrac1 : (((buildGraph es).edges.filter (isIntraEdge p)).length : ℚ) /
        ((buildGraph es).edges.length : ℚ) ≤ 1 := (div_le_one hmQ).mpr hkQ
    have hintra : intra (buildGraph es) p =
        1 - (((buildGraph es).edges.filter (isIntraEdge p)).length : ℚ) /
          ((buildGraph es).edges.length : ℚ) := by
      rw [intra, if_neg hm]
    have hSumQ : Finset.sum (communities p)
        (fun c => (communityDegree (buildGraph es) p c : ℚ)) =
        2 * ((buildGraph es).edges.length : ℚ) := by
      rw [← Nat.cast_sum, sum_communityDegree es p hkeys hcov]
      push_cast
      ring
    have hM2 : (0:ℚ) < (2 * ((buildGraph es).edges.length : ℚ)) ^ 2 := by positivity
    have hsq : Finset.sum (communities p)
        (fun c => (communityDegree (buildGraph es) p c : ℚ) ^ 2) ≤
        (2 * ((buildGraph es).edges.length : ℚ)) ^ 2 := by
      have h5 := sum_sq_le_sq_sum (communities p)
        (fun c => (communityDegree (buildGraph es) p c : ℚ))
        (fun c _ => by positivity)
      rw [hSumQ] at h5
      exact h5
    have hinter : inter (buildGraph es) p =
        Finset.sum (communities p)
          (fun c => (communityDegree (buildGraph es) p c : ℚ) ^ 2) /
          (2 * ((buildGraph es).edges.length : ℚ)) ^ 2 := by
      rw [inter, if_neg hm]
      rw [show (fun c => ((communityDegree (buildGraph es) p c : ℚ) /
            (2 * ((buildGraph es).edges.length : ℚ))) ^ 2) =
          (fun c => (communityDegree (buildGraph es) p c : ℚ) ^ 2 /
            (2 * ((buildGraph es).edges.length : ℚ)) ^ 2) from
          funext (fun c => div_pow _ _ 2)]
      rw [← Finset.sum_div]
    have hinter0 : 0 ≤ inter (buildGraph es) p := by
      rw [hinter]
      positivity
    have hinter1 : inter (buildGraph es) p ≤ 1 := by
      rw [hinter, div_le_one hM2]
      exact hsq
    refine ⟨?_, ?_, hinter0, hinter1, rfl⟩
    · rw [hintra]
      linarith
    · rw [hintra]
      linarith

/-- Concrete input for the C1 witness: a triangle graph. -/
def esFixture : List (NodeId × NodeId) := [(0, 1), (1, 2), (2, 0)]

/-- Concrete full-coverage partition for the C1 witness. -/
def pFixture : Partition := [(0, 5), (1, 5), (2, 7)]

/-- Witness for C1: the triangle graph with a two-community partition
satisfies the hypotheses, and the bounds and decomposition hold there. -/
theorem fitness_modularity_witness :
    ((pFixture.map Prod.fst).Nodup ∧
      (pFixture.map Prod.fst).toFinset = (buildGraph esFixture).nodes.toFinset) ∧
    (0 ≤ intra (buildGraph esFixture) pFixture ∧
      intra (buildGraph esFixture) pFixture ≤ 1 ∧
      0 ≤ inter (buildGraph esFixture) pFixture ∧
      inter (buildGraph esFixture) pFixture ≤ 1 ∧
      fitness esFixture pFixture =
        1 - intra (buildGraph esFixture) pFixture -
          inter (buildGraph esFixture) pFixture) :=
  ⟨⟨by decide, by decide⟩,
    fitness_modularity esFixture pFixture (by decide) (by decide)⟩

end Pyevoea
